import Mathlib

/-!
Verification of the PySM finite-state-machine engine (`src/pysm.py`).

The Python class `FSM` stores a transition table (a dict from state to a
collection of `(label, target)` pairs), a start state, a set of terminal
states, a current state, and two history logs.  We embed it shallowly:

* the dict becomes an association list `Table S L`; `dict.get` becomes
  `dictGet` (first matching key, `none` when absent);
* the per-state transition collection (a Python set) becomes a `List (L × S)`
  in a fixed enumeration order — the source picks "the first" matching
  transition out of that collection, so the embedding fixes the order the
  way an insertion-ordered implementation would;
* a Python set of states (a frontier, the terminal set) becomes a `List S`
  used only through membership and emptiness;
* raised exceptions become `Option`/`Except` results: `dict.get` returning
  `None` followed by iteration raises `TypeError` in Python, embedded as
  `none` / `StepError.unknownState`; `TransitionNotPossibleException`
  becomes `StepError.transitionNotPossible`; the constructor's
  `InvalidStateMachineException` makes `mkFSM` return `none`;
* the mutating method `step` becomes a function returning the updated
  machine together with its result, and methods that read but never write
  the object's fields become pure functions of the machine.
-/

/-- The transition table: Python `states`, a dict mapping each state to its
collection of `(label, target)` transitions. -/
abbrev Table (S L : Type) := List (S × List (L × S))

/-- Python `dict.get`: the value at the first matching key, `none` if the key
is absent. -/
def dictGet {S L : Type} [DecidableEq S] : Table S L → S → Option (List (L × S))
  | [], _ => none
  | kv :: rest, s => if s = kv.1 then some kv.2 else dictGet rest s

/-- The keys of the table, Python `states.keys()`. -/
def tableKeys {S L : Type} (table : Table S L) : List S :=
  table.map Prod.fst

/-- Validation `FSM._validate`: every transition target must itself be a key
of the table; the constructor raises `InvalidStateMachineException`
otherwise. -/
def validateTable {S L : Type} [DecidableEq S] (table : Table S L) : Bool :=
  table.all fun kv => kv.2.all fun tr => decide (tr.2 ∈ tableKeys table)

/-- The `FSM` object: transition table, start state, terminal states,
current state, and the two history logs (`state_history` starts as
`[start_state]`, `transition_history` as `[]`). -/
structure FSM (S L : Type) where
  states : Table S L
  start_state : S
  terminal_states : List S
  current_state : S
  state_history : List S
  transition_history : List L

/-- Constructor `FSM.__init__`: set the fields, initialise `current_state := start_state`,
`state_history := [start]`, `transition_history := []`, then run
`_validate`; a failed validation raises, so no object is produced (`none`). -/
def mkFSM {S L : Type} [DecidableEq S] (table : Table S L) (start : S)
    (terminals : List S) : Option (FSM S L) :=
  if validateTable table then
    some ⟨table, start, terminals, start, [start], []⟩
  else
    none

/-- Lookahead `FSM.can`: look up the current state's transitions and test whether any
carries the requested label.  When `current` is not a key, `dict.get`
returns `None` and the comprehension raises `TypeError`: embedded as `none`
(the spec's implementation-defined `UnknownState` failure). -/
def FSM.can {S L : Type} [DecidableEq S] [DecidableEq L] (fsm : FSM S L)
    (t : L) : Option Bool :=
  match dictGet fsm.states fsm.current_state with
  | none => none
  | some ts => some (ts.any fun x => decide (x.1 = t))

/-- Termination check `FSM.can_terminate`: `current ∈ terminal_states`. -/
def FSM.can_terminate {S L : Type} [DecidableEq S] (fsm : FSM S L) : Bool :=
  decide (fsm.current_state ∈ fsm.terminal_states)

/-- The failure modes of `FSM.step`: the explicit
`TransitionNotPossibleException`, and the `TypeError` reached by iterating a
`None` lookup (the spec's `UnknownState`). -/
inductive StepError where
  | transitionNotPossible
  | unknownState
deriving DecidableEq

/-- The source's greedy first-match: the target of the first transition in
the collection whose label equals `t`. -/
def findFirst {S L : Type} [DecidableEq L] : List (L × S) → L → Option S
  | [], _ => none
  | p :: rest, t => if p.1 = t then some p.2 else findFirst rest t

/-- Single step `FSM.step`: if `can` holds, append the first matching transition's target
to `state_history`, its label to `transition_history`, move `current_state`
there and return it; otherwise raise `TransitionNotPossibleException`.
The function returns the machine after the call together with the call's
outcome (`Except.ok none` is Python's fall-through `return None`, which is
unreachable when `can` returned `True`). -/
def FSM.step {S L : Type} [DecidableEq S] [DecidableEq L] (fsm : FSM S L)
    (t : L) : FSM S L × Except StepError (Option S) :=
  match fsm.can t with
  | none => (fsm, Except.error StepError.unknownState)
  | some false => (fsm, Except.error StepError.transitionNotPossible)
  | some true =>
    match dictGet fsm.states fsm.current_state with
    | none => (fsm, Except.error StepError.unknownState)
    | some ts =>
      match findFirst ts t with
      | none => (fsm, Except.ok none)
      | some target =>
        ({ fsm with
            current_state := target,
            state_history := fsm.state_history ++ [target],
            transition_history := fsm.transition_history ++ [t] },
         Except.ok (some target))

/-- Successor step `FSM._batch_step`: the NFA frontier step.  For each state
of the frontier, look up its transitions (`TypeError`, i.e. `none`, when the
state is not a key) and collect the targets of those labelled `t`. -/
def FSM.batch_step {S L : Type} [DecidableEq S] [DecidableEq L]
    (fsm : FSM S L) (t : L) : List S → Option (List S)
  | [] => some []
  | s :: rest =>
    match dictGet fsm.states s with
    | none => none
    | some ts =>
      match fsm.batch_step t rest with
      | none => none
      | some acc =>
          some (((ts.filter fun p => decide (p.1 = t)).map Prod.snd) ++ acc)

/-- The while-loop of `FSM.accepts`, recursing over the remaining labels with
the current frontier: consume one label via `_batch_step`, return `False` as
soon as the frontier empties, and once the labels are exhausted return
whether the frontier meets the terminal set. -/
def FSM.acceptsFrom {S L : Type} [DecidableEq S] [DecidableEq L]
    (fsm : FSM S L) : List L → List S → Option Bool
  | [], frontier =>
      some (frontier.any fun s => decide (s ∈ fsm.terminal_states))
  | t :: rest, frontier =>
    match fsm.batch_step t frontier with
    | none => none
    | some next => if next.isEmpty then some false else fsm.acceptsFrom rest next

/-- Acceptance `FSM.accepts`: run the loop starting from the singleton frontier
`{start_state}` when `from_start` is true, `{current_state}` otherwise. -/
def FSM.accepts {S L : Type} [DecidableEq S] [DecidableEq L] (fsm : FSM S L)
    (labels : List L) (from_start : Bool) : Option Bool :=
  fsm.acceptsFrom labels [if from_start then fsm.start_state else fsm.current_state]

/-- The `accepts` method as a state transformer: its body binds only local
variables (`transitions`, `initial_state`, `current_states`) and never
assigns an attribute of `self`, so the machine after the call is the machine
before it. -/
def FSM.acceptsRun {S L : Type} [DecidableEq S] [DecidableEq L] (fsm : FSM S L)
    (labels : List L) (from_start : Bool) : FSM S L × Option Bool :=
  (fsm, fsm.accepts labels from_start)

/-- Iterated `_batch_step`: the frontier after consuming a list of labels
(`none` as soon as a lookup of a frontier state fails). -/
def FSM.frontierRun {S L : Type} [DecidableEq S] [DecidableEq L]
    (fsm : FSM S L) : List L → List S → Option (List S)
  | [], frontier => some frontier
  | t :: rest, frontier =>
    match fsm.batch_step t frontier with
    | none => none
    | some next => fsm.frontierRun rest next

/-- A sequence of `step` calls, succeeding only when every call succeeds
with a target (Python: no exception and a non-`None` return). -/
def FSM.runSteps {S L : Type} [DecidableEq S] [DecidableEq L]
    (fsm : FSM S L) : List L → Option (FSM S L)
  | [] => some fsm
  | t :: rest =>
    match fsm.step t with
    | (fsm', Except.ok (some _)) => fsm'.runSteps rest
    | _ => none

/-- The observable trace of a sequence of `step` calls: after each call,
the values of `current_state`, `state_history` and `transition_history`. -/
def FSM.stepTrace {S L : Type} [DecidableEq S] [DecidableEq L]
    (fsm : FSM S L) : List L → List (S × List S × List L)
  | [] => []
  | t :: rest =>
    let out := fsm.step t
    (out.1.current_state, out.1.state_history, out.1.transition_history)
      :: out.1.stepTrace rest

/-- A path in the transition relation: `isPath table s labels e` holds when
starting at `s` one can consume `labels` in order along transitions of
`table` and end at `e`. -/
def isPath {S L : Type} [DecidableEq S] (table : Table S L) :
    S → List L → S → Prop
  | s, [], e => s = e
  | s, t :: rest, e =>
      ∃ ts x, dictGet table s = some ts ∧ (t, x) ∈ ts ∧ isPath table x rest e

/-- The history-path invariant: `state_history` is one longer than
`transition_history`, starts at `start_state`, ends at `current_state`, and
each consecutive pair is connected by a recorded transition of the table. -/
def FSM.HistoryInv {S L : Type} [DecidableEq S] (fsm : FSM S L) : Prop :=
  fsm.state_history.length = fsm.transition_history.length + 1 ∧
  fsm.state_history.head? = some fsm.start_state ∧
  fsm.state_history.getLast? = some fsm.current_state ∧
  ∀ i, i < fsm.transition_history.length →
    ∃ s s' l ts, fsm.state_history[i]? = some s ∧
      fsm.state_history[i+1]? = some s' ∧
      fsm.transition_history[i]? = some l ∧
      dictGet fsm.states s = some ts ∧ (l, s') ∈ ts

/-- Concrete example table mirroring the source's first test scenario
`{q0: {(a,q1),(b,q1)}, q1: {(a,q1)}}` with `q0 = 0`, `q1 = 1`, `a = 1`,
`b = 2`. -/
def exTable : Table Nat Nat := [(0, [(1, 1), (2, 1)]), (1, [(1, 1)])]

/-- The machine built from `exTable` with start `0` and terminal set `{1}`. -/
def exFSM : FSM Nat Nat := ⟨exTable, 0, [1], 0, [0], []⟩

/-- The machine `exFSM` after one successful `step 1`. -/
def exFSM1 : FSM Nat Nat := ⟨exTable, 0, [1], 1, [0, 1], [1]⟩

/-- A machine over `exTable` whose current state `7` is not a key of the
table. -/
def exBadFSM : FSM Nat Nat := ⟨exTable, 0, [1], 7, [0], []⟩

/- ### Helper lemmas -/

/-- A `dictGet` lookup succeeds exactly on the keys of the table. -/
theorem dictGet_isSome_iff {S L : Type} [DecidableEq S] (table : Table S L)
    (s : S) : (dictGet table s).isSome ↔ s ∈ tableKeys table := by
  induction table with
  | nil => simp [dictGet, tableKeys]
  | cons kv rest ih =>
    by_cases h : s = kv.1
    · simp [dictGet, tableKeys, h]
    · simp [dictGet, tableKeys, h, ih]

/-- A state outside the keys has no entry. -/
theorem dictGet_eq_none_of_not_mem {S L : Type} [DecidableEq S]
    {table : Table S L} {s : S} (h : s ∉ tableKeys table) :
    dictGet table s = none := by
  rcases hg : dictGet table s with _ | ts
  · rfl
  · exact absurd ((dictGet_isSome_iff table s).mp (by rw [hg]; rfl)) h

/-- A successful lookup returns an actual entry of the table. -/
theorem dictGet_mem {S L : Type} [DecidableEq S] {table : Table S L} {s : S}
    {ts : List (L × S)} (h : dictGet table s = some ts) : (s, ts) ∈ table := by
  induction table with
  | nil => simp [dictGet] at h
  | cons kv rest ih =>
    obtain ⟨k, v⟩ := kv
    simp only [dictGet] at h
    split at h
    · next heq =>
      injection h with h
      subst heq; subst h
      exact List.mem_cons_self _ _
    · exact List.mem_cons_of_mem _ (ih h)

/-- In a validated table, every transition's target is a key. -/
theorem validate_target_mem {S L : Type} [DecidableEq S] {table : Table S L}
    (hval : validateTable table = true) {s : S} {ts : List (L × S)} {l : L}
    {x : S} (h : dictGet table s = some ts) (hm : (l, x) ∈ ts) :
    x ∈ tableKeys table := by
  have hkv := dictGet_mem h
  rw [validateTable, List.all_eq_true] at hval
  have h2 := hval _ hkv
  rw [List.all_eq_true] at h2
  exact of_decide_eq_true (h2 _ hm)

/-- The greedy first match, when it exists, is a transition of the list. -/
theorem findFirst_mem {S L : Type} [DecidableEq L] {ts : List (L × S)} {t : L}
    {x : S} (h : findFirst ts t = some x) : (t, x) ∈ ts := by
  induction ts with
  | nil => simp [findFirst] at h
  | cons p rest ih =>
    obtain ⟨l, y⟩ := p
    simp only [findFirst] at h
    split at h
    · next heq =>
      injection h with h
      subst heq; subst h
      exact List.mem_cons_self _ _
    · exact List.mem_cons_of_mem _ (ih h)

/-- Membership in the targets collected by `_batch_step` for one state. -/
theorem mem_filteredTargets {S L : Type} [DecidableEq L] (ts : List (L × S))
    (t : L) (x : S) :
    x ∈ (ts.filter fun p => decide (p.1 = t)).map Prod.snd ↔ (t, x) ∈ ts := by
  simp only [List.mem_map, List.mem_filter, decide_eq_true_eq]
  constructor
  · rintro ⟨⟨l, y⟩, ⟨hmem, hl⟩, hy⟩
    simp only at hl hy
    subst hl; subst hy
    exact hmem
  · intro h
    exact ⟨(t, x), ⟨h, rfl⟩, rfl⟩

/-- Characterisation of `_batch_step`: when every frontier state has an
entry, the step succeeds and the next frontier holds exactly the targets
reachable from the frontier on label `t`. -/
theorem batch_step_char {S L : Type} [DecidableEq S] [DecidableEq L]
    (fsm : FSM S L) (t : L) (f : List S) :
    (∀ s ∈ f, (dictGet fsm.states s).isSome) →
    ∃ next, fsm.batch_step t f = some next ∧
      ∀ x, x ∈ next ↔
        ∃ s ∈ f, ∃ ts, dictGet fsm.states s = some ts ∧ (t, x) ∈ ts := by
  induction f with
  | nil =>
    intro _
    exact ⟨[], rfl, by simp⟩
  | cons s rest ih =>
    intro hk
    obtain ⟨ts, hts⟩ := Option.isSome_iff_exists.mp (hk s (List.mem_cons_self s rest))
    obtain ⟨next', hnext', hchar⟩ := ih fun s' hs' => hk s' (List.mem_cons_of_mem _ hs')
    refine ⟨(ts.filter fun p => decide (p.1 = t)).map Prod.snd ++ next', ?_, ?_⟩
    · simp only [FSM.batch_step, hts, hnext']
    · intro x
      rw [List.mem_append, mem_filteredTargets, hchar]
      constructor
      · rintro (h | ⟨s', hs', ts', hts', hmem⟩)
        · exact ⟨s, List.mem_cons_self s rest, ts, hts, h⟩
        · exact ⟨s', List.mem_cons_of_mem _ hs', ts', hts', hmem⟩
      · rintro ⟨s', hs', ts', hts', hmem⟩
        rcases List.mem_cons.mp hs' with h | h
        · subst h
          rw [hts] at hts'
          injection hts' with h
          subst h
          exact Or.inl hmem
        · exact Or.inr ⟨s', h, ts', hts', hmem⟩

/-- Closure of the frontier under `_batch_step` in a validated machine:
every state of the produced frontier is a key of the table. -/
theorem batch_step_keys {S L : Type} [DecidableEq S] [DecidableEq L]
    (fsm : FSM S L) (t : L) (f next : List S)
    (hval : validateTable fsm.states = true)
    (h : fsm.batch_step t f = some next) :
    ∀ x ∈ next, x ∈ tableKeys fsm.states := by
  induction f generalizing next with
  | nil =>
    simp only [FSM.batch_step, Option.some_inj] at h
    subst h
    intro x hx
    simp at hx
  | cons s rest ih =>
    simp only [FSM.batch_step] at h
    rcases hg : dictGet fsm.states s with _ | ts <;> rw [hg] at h
    · simp at h
    · rcases hr : fsm.batch_step t rest with _ | acc <;> rw [hr] at h
      · simp at h
      · simp only [Option.some_inj] at h
        subst h
        intro x hx
        rcases List.mem_append.mp hx with hx | hx
        · exact validate_target_mem hval hg ((mem_filteredTargets ts t x).mp hx)
        · exact ih acc hr x hx

/-- Soundness and completeness of the while-loop of `accepts`: over a
validated machine, starting from a frontier of table keys, the loop returns
`true` exactly when some frontier state has a path consuming the labels and
ending in a terminal state. -/
theorem acceptsFrom_iff {S L : Type} [DecidableEq S] [DecidableEq L]
    (fsm : FSM S L) (hval : validateTable fsm.states = true)
    (labels : List L) : ∀ frontier : List S,
    (∀ s ∈ frontier, s ∈ tableKeys fsm.states) →
    (fsm.acceptsFrom labels frontier = some true ↔
      ∃ s ∈ frontier, ∃ e, isPath fsm.states s labels e ∧
        e ∈ fsm.terminal_states) := by
  induction labels with
  | nil =>
    intro frontier _
    simp only [FSM.acceptsFrom, Option.some_inj, List.any_eq_true,
      decide_eq_true_eq, isPath]
    constructor
    · rintro ⟨s, hs, hterm⟩
      exact ⟨s, hs, s, rfl, hterm⟩
    · rintro ⟨s, hs, e, he, hterm⟩
      exact ⟨s, hs, he ▸ hterm⟩
  | cons t rest ih =>
    intro frontier hkeys
    obtain ⟨next, hnext, hchar⟩ := batch_step_char fsm t frontier
      fun s hs => (dictGet_isSome_iff _ _).mpr (hkeys s hs)
    have hnextkeys : ∀ x ∈ next, x ∈ tableKeys fsm.states :=
      batch_step_keys fsm t frontier next hval hnext
    simp only [FSM.acceptsFrom, hnext]
    by_cases hemp : next.isEmpty
    · rw [if_pos hemp, List.isEmpty_iff] at *
      constructor
      · intro h
        simp at h
      · rintro ⟨s, hs, e, ⟨ts, x, hts, hmem, _⟩, _⟩
        have hx : x ∈ next := (hchar x).mpr ⟨s, hs, ts, hts, hmem⟩
        rw [hemp] at hx
        simp at hx
    · rw [if_neg hemp, ih next hnextkeys]
      constructor
      · rintro ⟨x, hx, e, hpath, hterm⟩
        obtain ⟨s, hs, ts, hts, hmem⟩ := (hchar x).mp hx
        exact ⟨s, hs, e, ⟨ts, x, hts, hmem, hpath⟩, hterm⟩
      · rintro ⟨s, hs, e, ⟨ts, x, hts, hmem, hpath⟩, hterm⟩
        exact ⟨x, (hchar x).mpr ⟨s, hs, ts, hts, hmem⟩, e, hpath, hterm⟩

/-- Acceptance from a singleton frontier is path existence, whether or not
the state is a key of the table (when it is not and labels remain, the call
fails, and no path exists either). -/
theorem acceptsFrom_singleton_iff {S L : Type} [DecidableEq S] [DecidableEq L]
    (fsm : FSM S L) (hval : validateTable fsm.states = true)
    (labels : List L) (s0 : S) :
    fsm.acceptsFrom labels [s0] = some true ↔
      ∃ e, isPath fsm.states s0 labels e ∧ e ∈ fsm.terminal_states := by
  by_cases hk : s0 ∈ tableKeys fsm.states
  · rw [acceptsFrom_iff fsm hval labels [s0]
      (by intro s hs; rw [List.mem_singleton] at hs; subst hs; exact hk)]
    simp
  · cases labels with
    | nil =>
      simp only [FSM.acceptsFrom, Option.some_inj, List.any_eq_true,
        decide_eq_true_eq, isPath, List.mem_singleton]
      constructor
      · rintro ⟨s, hs, hterm⟩
        exact ⟨s, hs.symm, hterm⟩
      · rintro ⟨e, he, hterm⟩
        exact ⟨s0, rfl, he ▸ hterm⟩
    | cons t rest =>
      have hnone : dictGet fsm.states s0 = none := dictGet_eq_none_of_not_mem hk
      constructor
      · intro h
        simp [FSM.acceptsFrom, FSM.batch_step, hnone] at h
      · rintro ⟨e, ⟨ts, x, hts, _, _⟩, _⟩
        rw [hnone] at hts
        simp at hts

/-- Totality of the while-loop of `accepts` over a validated machine when
every frontier state is a key: no lookup ever fails. -/
theorem acceptsFrom_isSome {S L : Type} [DecidableEq S] [DecidableEq L]
    (fsm : FSM S L) (hval : validateTable fsm.states = true)
    (labels : List L) : ∀ frontier : List S,
    (∀ s ∈ frontier, s ∈ tableKeys fsm.states) →
    (fsm.acceptsFrom labels frontier).isSome := by
  induction labels with
  | nil =>
    intro frontier _
    simp [FSM.acceptsFrom]
  | cons t rest ih =>
    intro frontier hkeys
    obtain ⟨next, hnext, _⟩ := batch_step_char fsm t frontier
      fun s hs => (dictGet_isSome_iff _ _).mpr (hkeys s hs)
    simp only [FSM.acceptsFrom, hnext]
    by_cases hemp : next.isEmpty
    · rw [if_pos hemp]
      rfl
    · rw [if_neg hemp]
      exact ih next (batch_step_keys fsm t frontier next hval hnext)

/-- When iterating `_batch_step` over a prefix of the labels empties the
frontier, the while-loop of `accepts` answers `false` for any continuation
of that prefix. -/
theorem acceptsFrom_false_of_frontierRun_nil {S L : Type} [DecidableEq S]
    [DecidableEq L] (fsm : FSM S L) (p : List L) :
    ∀ (r : List L) (f : List S), fsm.frontierRun p f = some [] →
      fsm.acceptsFrom (p ++ r) f = some false := by
  induction p with
  | nil =>
    intro r f h
    simp only [FSM.frontierRun, Option.some_inj] at h
    subst h
    cases r with
    | nil => simp [FSM.acceptsFrom]
    | cons t rest => simp [FSM.acceptsFrom, FSM.batch_step]
  | cons t p' ih =>
    intro r f h
    simp only [FSM.frontierRun] at h
    rcases hb : fsm.batch_step t f with _ | next <;> rw [hb] at h
    · simp at h
    · simp only [List.cons_append, FSM.acceptsFrom, hb]
      by_cases hemp : next.isEmpty
      · rw [if_pos hemp]
      · rw [if_neg hemp]
        exact ih r next h

/-- Shape of a successful `step`: it happens along a recorded transition of
the current state, and the machine is updated by appending to both logs and
moving `current_state`. -/
theorem step_ok_shape {S L : Type} [DecidableEq S] [DecidableEq L]
    (fsm : FSM S L) (t : L) (fsm' : FSM S L) (x : S)
    (h : fsm.step t = (fsm', Except.ok (some x))) :
    ∃ ts, dictGet fsm.states fsm.current_state = some ts ∧ (t, x) ∈ ts ∧
      fsm' = { fsm with
        current_state := x,
        state_history := fsm.state_history ++ [x],
        transition_history := fsm.transition_history ++ [t] } := by
  rcases hc : fsm.can t with _ | b
  · simp [FSM.step, hc] at h
  · cases b
    · simp [FSM.step, hc] at h
    · rcases hg : dictGet fsm.states fsm.current_state with _ | ts
      · simp [FSM.step, hc, hg] at h
      · rcases hf : findFirst ts t with _ | target
        · simp [FSM.step, hc, hg, hf] at h
        · simp only [FSM.step, hc, hg, hf] at h
          injection h with h1 h2
          injection h2 with h2
          injection h2 with h2
          subst h2
          exact ⟨ts, hg ▸ rfl, findFirst_mem hf, h1.symm⟩

/-- Appending on the right keeps the head of a non-empty list. -/
theorem head?_append_single {α : Type} (l : List α) (a b : α)
    (h : l.head? = some a) : (l ++ [b]).head? = some a := by
  cases l with
  | nil => simp at h
  | cons c rest => simpa using h

/-- A freshly constructed machine satisfies the history-path invariant. -/
theorem historyInv_mk {S L : Type} [DecidableEq S] (table : Table S L)
    (start : S) (terms : List S) (fsm : FSM S L)
    (h : mkFSM table start terms = some fsm) : fsm.HistoryInv := by
  simp only [mkFSM] at h
  split at h
  · injection h with h
    subst h
    refine ⟨rfl, rfl, by simp, ?_⟩
    intro i hi
    simp at hi
  · simp at h

/-- A successful `step` preserves the history-path invariant. -/
theorem historyInv_step {S L : Type} [DecidableEq S] [DecidableEq L]
    (fsm fsm' : FSM S L) (t : L) (x : S) (hinv : fsm.HistoryInv)
    (h : fsm.step t = (fsm', Except.ok (some x))) : fsm'.HistoryInv := by
  obtain ⟨ts, hts, hmem, hup⟩ := step_ok_shape fsm t fsm' x h
  obtain ⟨hlen, hhead, hlast, hidx⟩ := hinv
  subst hup
  refine ⟨?_, ?_, ?_, ?_⟩
  · simp only [List.length_append, List.length_cons, List.length_nil]
    omega
  · exact head?_append_single _ _ _ hhead
  · simp [List.getLast?_concat]
  · intro i hi
    simp only [List.length_append, List.length_cons, List.length_nil] at hi
    rcases Nat.lt_or_ge i fsm.transition_history.length with hlt | hge
    · obtain ⟨s, s', l, ts', h1, h2, h3, h4, h5⟩ := hidx i hlt
      refine ⟨s, s', l, ts', ?_, ?_, ?_, h4, h5⟩
      · rw [List.getElem?_append_left (by omega)]
        exact h1
      · rw [List.getElem?_append_left (by omega)]
        exact h2
      · rw [List.getElem?_append_left hlt]
        exact h3
    · have hieq : i = fsm.transition_history.length := by omega
      subst hieq
      refine ⟨fsm.current_state, x, t, ts, ?_, ?_, ?_, hts, hmem⟩
      · rw [List.getElem?_append_left (by omega)]
        have hidx2 : fsm.transition_history.length = fsm.state_history.length - 1 := by
          omega
        rw [hidx2, ← List.getLast?_eq_getElem?]
        exact hlast
      · have hidx3 : fsm.transition_history.length + 1 = fsm.state_history.length := by
          omega
        rw [hidx3, List.getElem?_concat_length]
      · rw [List.getElem?_concat_length]

/-- A sequence of successful `step` calls preserves the history-path
invariant. -/
theorem historyInv_runSteps {S L : Type} [DecidableEq S] [DecidableEq L]
    (labels : List L) : ∀ (fsm fsm' : FSM S L), fsm.HistoryInv →
    fsm.runSteps labels = some fsm' → fsm'.HistoryInv := by
  induction labels with
  | nil =>
    intro fsm fsm' hinv h
    simp only [FSM.runSteps, Option.some_inj] at h
    subst h
    exact hinv
  | cons t rest ih =>
    intro fsm fsm' hinv h
    simp only [FSM.runSteps] at h
    rcases hs : fsm.step t with ⟨f2, res⟩
    rw [hs] at h
    rcases res with e | ro
    · simp at h
    · rcases ro with _ | x
      · simp at h
      · exact ih f2 fsm' (historyInv_step fsm f2 t x hinv hs) h

/- ### Claim theorems -/

/-- C1: for every validated automaton and every finite label sequence,
`accepts(labels, fromStart)` returns `true` iff there is a path in the
transition relation from the start state (resp. the current state when
`fromStart` is false) consuming the labels in order and ending in a
terminal state. -/
theorem accepts_iff_exists_path {S L : Type} [DecidableEq S] [DecidableEq L]
    (fsm : FSM S L) (labels : List L) (from_start : Bool)
    (hval : validateTable fsm.states = true) :
    (fsm.accepts labels from_start = some true ↔
      ∃ e, isPath fsm.states
        (if from_start then fsm.start_state else fsm.current_state) labels e ∧
        e ∈ fsm.terminal_states) :=
  acceptsFrom_singleton_iff fsm hval labels _

/-- C2: `step(label)` fails with `TransitionNotPossible` iff `can(label)` is
false immediately before the call, and on that failure the machine (its
`current_state`, `state_history` and `transition_history`) is unchanged. -/
theorem step_precondition {S L : Type} [DecidableEq S] [DecidableEq L]
    (fsm : FSM S L) (t : L) :
    ((fsm.step t).2 = Except.error StepError.transitionNotPossible ↔
      fsm.can t = some false) ∧
    ((fsm.step t).2 = Except.error StepError.transitionNotPossible →
      (fsm.step t).1 = fsm) := by
  rcases hc : fsm.can t with _ | b
  · simp [FSM.step, hc]
  · cases b
    · simp [FSM.step, hc]
    · rcases hg : dictGet fsm.states fsm.current_state with _ | ts
      · simp [FSM.step, hc, hg]
      · rcases hf : findFirst ts t with _ | x
        · simp [FSM.step, hc, hg, hf]
        · simp [FSM.step, hc, hg, hf]

/-- C3: construction fails with `InvalidMachine` iff some transition targets
a state that is not a key of the table; any table satisfying the closure
condition constructs successfully whatever the start state and terminal
set are. -/
theorem construction_validation {S L : Type} [DecidableEq S] [DecidableEq L]
    (table : Table S L) (start : S) (terms : List S) :
    (mkFSM table start terms = none ↔
      ∃ kv ∈ table, ∃ tr ∈ kv.2, tr.2 ∉ tableKeys table) ∧
    ((∀ kv ∈ table, ∀ tr ∈ kv.2, tr.2 ∈ tableKeys table) →
      mkFSM table start terms =
        some ⟨table, start, terms, start, [start], []⟩) := by
  have hval : validateTable table = true ↔
      ∀ kv ∈ table, ∀ tr ∈ kv.2, tr.2 ∈ tableKeys table := by
    simp [validateTable, List.all_eq_true]
  have hnone : mkFSM table start terms = none ↔
      ¬ validateTable table = true := by
    simp only [mkFSM]
    split
    · next h => simp [h]
    · next h => simp [h]
  constructor
  · rw [hnone, hval]
    push_neg
    rfl
  · intro h
    simp [mkFSM, hval.mpr h]

/-- C4: `accepts` is side-effect-free: after any `accepts` call, whatever
the result, `current_state`, `state_history` and `transition_history` are
identical to their values before the call. -/
theorem accepts_no_side_effects {S L : Type} [DecidableEq S] [DecidableEq L]
    (fsm : FSM S L) (labels : List L) (from_start : Bool) :
    (fsm.acceptsRun labels from_start).1.current_state = fsm.current_state ∧
    (fsm.acceptsRun labels from_start).1.state_history = fsm.state_history ∧
    (fsm.acceptsRun labels from_start).1.transition_history =
      fsm.transition_history :=
  ⟨rfl, rfl, rfl⟩

/-- C5: step is deterministic across runs: two machines constructed from the
same table, start state and terminal set produce identical `current_state`,
`state_history` and `transition_history` after every prefix of the same
sequence of `step` calls. -/
theorem step_deterministic {S L : Type} [DecidableEq S] [DecidableEq L]
    (table : Table S L) (start : S) (terms : List S) (m1 m2 : FSM S L)
    (labels : List L) (h1 : mkFSM table start terms = some m1)
    (h2 : mkFSM table start terms = some m2) :
    m1.stepTrace labels = m2.stepTrace labels := by
  rw [h1] at h2
  injection h2 with h2
  rw [h2]

/-- C6: empty-frontier short-circuit: if iterating the frontier step over
some prefix of the labels empties the frontier, `accepts` returns `false`
for that prefix followed by any suffix whatsoever, so the remaining labels
cannot influence the result. -/
theorem accepts_short_circuit {S L : Type} [DecidableEq S] [DecidableEq L]
    (fsm : FSM S L) (p r : List L) (from_start : Bool)
    (h : fsm.frontierRun p
      [if from_start then fsm.start_state else fsm.current_state] = some []) :
    fsm.accepts (p ++ r) from_start = some false :=
  acceptsFrom_false_of_frontierRun_nil fsm p r _ h

/-- C7: when the current state is not a key of the table, `can(label)` fails
(the lookup yields `None` and iterating it raises — the spec's
`UnknownState`) instead of returning false. -/
theorem can_unknown_state {S L : Type} [DecidableEq S] [DecidableEq L]
    (fsm : FSM S L) (t : L)
    (h : fsm.current_state ∉ tableKeys fsm.states) : fsm.can t = none := by
  simp [FSM.can, dictGet_eq_none_of_not_mem h]

/-- C8: `accepts` never raises on an empty label sequence — it returns an
ordinary boolean, `true` exactly when the initial state (start when
`fromStart`, current otherwise) belongs to the terminal set — nor on an
empty mid-sequence frontier, where it returns the ordinary boolean
`false`. -/
theorem accepts_nil_result {S L : Type} [DecidableEq S] [DecidableEq L]
    (fsm : FSM S L) (from_start : Bool) :
    (fsm.accepts [] from_start = some (decide
      ((if from_start then fsm.start_state else fsm.current_state) ∈
        fsm.terminal_states))) ∧
    (∀ p r : List L, fsm.frontierRun p
        [if from_start then fsm.start_state else fsm.current_state] =
          some [] →
      fsm.accepts (p ++ r) from_start = some false) := by
  constructor
  · simp [FSM.accepts, FSM.acceptsFrom]
  · intro p r h
    exact acceptsFrom_false_of_frontierRun_nil fsm p r _ h

/-- C9: history-path invariant: for a machine constructed with a start state
that is a key of the table, after every sequence of successful `step` calls
the visited log is one longer than the taken log, begins at the start
state, ends at the current state, and each consecutive pair is connected by
a recorded transition of the table. -/
theorem history_path_invariant {S L : Type} [DecidableEq S] [DecidableEq L]
    (table : Table S L) (start : S) (terms : List S) (labels : List L)
    (fsm0 fsm : FSM S L) (hstart : start ∈ tableKeys table)
    (hmk : mkFSM table start terms = some fsm0)
    (hrun : fsm0.runSteps labels = some fsm) : fsm.HistoryInv :=
  historyInv_runSteps labels fsm0 fsm (historyInv_mk table start terms fsm0 hmk)
    hrun

/-- C10: frontier closure: in a validated machine, a frontier of table keys
has a successor frontier consisting of table keys, and consequently
`accepts` is total (never fails) whenever its initial state is a key of the
table. -/
theorem frontier_closure_and_total {S L : Type} [DecidableEq S] [DecidableEq L]
    (fsm : FSM S L) (hval : validateTable fsm.states = true) :
    (∀ (t : L) (frontier : List S),
      (∀ s ∈ frontier, s ∈ tableKeys fsm.states) →
      ∃ next, fsm.batch_step t frontier = some next ∧
        ∀ x ∈ next, x ∈ tableKeys fsm.states) ∧
    (∀ (labels : List L) (from_start : Bool),
      (if from_start then fsm.start_state else fsm.current_state) ∈
        tableKeys fsm.states →
      (fsm.accepts labels from_start).isSome) := by
  constructor
  · intro t frontier hk
    obtain ⟨next, hnext, _⟩ := batch_step_char fsm t frontier
      fun s hs => (dictGet_isSome_iff _ _).mpr (hk s hs)
    exact ⟨next, hnext, batch_step_keys fsm t frontier next hval hnext⟩
  · intro labels from_start hk
    refine acceptsFrom_isSome fsm hval labels _ ?_
    intro s hs
    rw [List.mem_singleton] at hs
    subst hs
    exact hk

/- ### Witnesses -/

/-- Witness for C1 on the concrete machine `exFSM` and labels `[2, 1]`
(the source's `accepts("ba...")` scenario). -/
theorem accepts_iff_exists_path_witness :
    validateTable exFSM.states = true ∧
    (exFSM.accepts [2, 1] true = some true ↔
      ∃ e, isPath exFSM.states
        (if true then exFSM.start_state else exFSM.current_state) [2, 1] e ∧
        e ∈ exFSM.terminal_states) :=
  ⟨by decide, accepts_iff_exists_path exFSM [2, 1] true (by decide)⟩

/-- Witness for C5: the two machines constructed from `exTable` coincide on
the trace of two `step` calls. -/
theorem step_deterministic_witness :
    mkFSM exTable 0 [1] = some exFSM ∧
    exFSM.stepTrace [1, 1] = exFSM.stepTrace [1, 1] :=
  ⟨rfl, step_deterministic exTable 0 [1] exFSM exFSM [1, 1] rfl rfl⟩

/-- Witness for C6: on `exFSM` the unmatched label `5` empties the frontier,
so `accepts` is false even though the suffix `[1]` would match from the
start state. -/
theorem accepts_short_circuit_witness :
    exFSM.frontierRun [5]
      [if true then exFSM.start_state else exFSM.current_state] = some [] ∧
    exFSM.accepts ([5] ++ [1]) true = some false :=
  ⟨rfl, accepts_short_circuit exFSM [5] [1] true rfl⟩

/-- Witness for C7: `exBadFSM` sits in state `7`, which is not a key of its
table, and `can 1` fails there. -/
theorem can_unknown_state_witness :
    exBadFSM.current_state ∉ tableKeys exBadFSM.states ∧
    exBadFSM.can 1 = none :=
  ⟨by decide, can_unknown_state exBadFSM 1 (by decide)⟩

/-- Witness for C9: one successful `step 1` from the freshly constructed
`exFSM` yields `exFSM1`, which satisfies the history-path invariant. -/
theorem history_path_invariant_witness :
    0 ∈ tableKeys exTable ∧ mkFSM exTable 0 [1] = some exFSM ∧
    exFSM.runSteps [1] = some exFSM1 ∧ exFSM1.HistoryInv :=
  ⟨by decide, rfl, rfl,
    history_path_invariant exTable 0 [1] [1] exFSM exFSM1 (by decide) rfl rfl⟩

/-- Witness for C10 on the validated concrete machine `exFSM`. -/
theorem frontier_closure_and_total_witness :
    validateTable exFSM.states = true ∧
    ((∀ (t : Nat) (frontier : List Nat),
        (∀ s ∈ frontier, s ∈ tableKeys exFSM.states) →
        ∃ next, exFSM.batch_step t frontier = some next ∧
          ∀ x ∈ next, x ∈ tableKeys exFSM.states) ∧
     (∀ (labels : List Nat) (from_start : Bool),
        (if from_start then exFSM.start_state else exFSM.current_state) ∈
          tableKeys exFSM.states →
        (exFSM.accepts labels from_start).isSome)) :=
  ⟨by decide, frontier_closure_and_total exFSM (by decide)⟩
